import Mathlib

/-!
Verification of the libwally-core EC signature layer, as declared in
src/include/wally_crypto.h. The header under src/ contains only the
declarations, constants and documented contracts of the signature layer;
the implementations live outside src/, so the behavioural definitions
below are modelled from the spec (each such definition says so in its
doc comment). Bytes are modelled as natural numbers below 256 and byte
buffers as lists of naturals.
-/

/-- Error kinds of the signature layer, per the spec's error handling design. -/
inductive WallyError where
  | invalidKey
  | invalidPoint
  | invalidSignature
  | invalidFlag
  | invalidEncoding
  | payloadTooLarge
  | bufferTooSmall
  | verificationFailed
deriving DecidableEq, Repr

/-- Little-endian interpretation of a byte list as a natural number. -/
def leToNat : List Nat → Nat
  | [] => 0
  | b :: bs => b + 256 * leToNat bs

/-- Little-endian encoding of a natural number into exactly n bytes. -/
def natToLe : Nat → Nat → List Nat
  | 0, _ => []
  | n + 1, m => m % 256 :: natToLe n (m / 256)

/-- Big-endian interpretation of a byte list as a natural number. -/
def beToNat (bs : List Nat) : Nat := leToNat bs.reverse

/-- Big-endian encoding of a natural number into exactly n bytes. -/
def natToBe (n m : Nat) : List Nat := (natToLe n m).reverse

/-- Minimal-length big-endian encoding of a natural number (one byte for 0). -/
def natToBeMin (m : Nat) : List Nat :=
  if m < 256 then [m] else natToBeMin (m / 256) ++ [m % 256]
decreasing_by exact Nat.div_lt_self (by omega) (by omega)

/-- Length of a private key used for EC signing (wally_crypto.h). -/
def EC_PRIVATE_KEY_LEN : Nat := 32

/-- Length of a compressed public key (wally_crypto.h). -/
def EC_PUBLIC_KEY_LEN : Nat := 33

/-- Length of a message hash to EC sign (wally_crypto.h). -/
def EC_MESSAGE_HASH_LEN : Nat := 32

/-- Length of a compact signature (wally_crypto.h). -/
def EC_SIGNATURE_LEN : Nat := 64

/-- Maximum encoded length of a DER encoded signature (wally_crypto.h). -/
def EC_SIGNATURE_DER_MAX_LEN : Nat := 72

/-- Flag requesting an ECDSA/secp256k1 signature (wally_crypto.h). -/
def EC_FLAG_ECDSA : Nat := 1

/-- Flag requesting an EC-Schnorr-SHA256 signature (wally_crypto.h). -/
def EC_FLAG_SCHNORR : Nat := 2

/-- Output length of SHA-256 (wally_crypto.h). -/
def SHA256_LEN : Nat := 32

/-- Maximum size of an input message that can be formatted (wally_crypto.h). -/
def BITCOIN_MESSAGE_MAX_LEN : Nat := 64 * 1024 - 64

/-- Flag requesting the double-SHA256 of the formatted message (wally_crypto.h). -/
def BITCOIN_MESSAGE_FLAG_HASH : Nat := 1

/-- Order of the secp256k1 curve group. -/
def secpOrder : Nat :=
  0xFFFFFFFFFFFFFFFFFFFFFFFFFFFFFFFEBAAEDCE6AF48A03BBFD25E8CD0364141

/-- Validity of a private key per the spec: 32 bytes, value in (0, order). -/
def validPrivKey (k : List Nat) : Prop :=
  k.length = EC_PRIVATE_KEY_LEN ∧ 0 < beToNat k ∧ beToNat k < secpOrder

instance (k : List Nat) : Decidable (validPrivKey k) := by
  unfold validPrivKey; infer_instance

/-- Well-formedness of a compact signature: 64 bytes each below 256, with r
and s components in the range required by the verifier. -/
def sigWF (s : List Nat) : Prop :=
  s.length = EC_SIGNATURE_LEN ∧ (∀ b ∈ s, b < 256) ∧
    0 < beToNat (s.take 32) ∧ beToNat (s.take 32) < secpOrder ∧
    0 < beToNat (s.drop 32) ∧ beToNat (s.drop 32) < secpOrder

instance (s : List Nat) : Decidable (sigWF s) := by
  unfold sigWF; infer_instance

/-- Modelled from the spec: the Curve Arithmetic Provider of section 6, an
external collaborator supplying point derivation, point validity, and the
ECDSA and Schnorr sign/verify primitives over secp256k1. Its implementation
is not part of the repository source under src/. -/
structure CurveProvider where
  point_from_scalar : List Nat → List Nat
  point_is_valid : List Nat → Bool
  ecdsa_sign : List Nat → List Nat → List Nat
  ecdsa_verify : List Nat → List Nat → List Nat → Bool
  schnorr_sign : List Nat → List Nat → List Nat
  schnorr_verify : List Nat → List Nat → List Nat → Bool

/-- Modelled from the spec: the contract of the trusted Curve Arithmetic
Provider. Public keys derived from valid private keys are valid 33-byte
points, produced signatures are well-formed compact signatures, and each
scheme's verifier accepts that scheme's signature on the derived key. -/
structure ProviderOK (P : CurveProvider) : Prop where
  pub_len : ∀ k, validPrivKey k → (P.point_from_scalar k).length = EC_PUBLIC_KEY_LEN
  pub_valid : ∀ k, validPrivKey k → P.point_is_valid (P.point_from_scalar k) = true
  ecdsa_wf : ∀ k h, validPrivKey k → h.length = EC_MESSAGE_HASH_LEN →
    sigWF (P.ecdsa_sign k h)
  ecdsa_ok : ∀ k h, validPrivKey k → h.length = EC_MESSAGE_HASH_LEN →
    P.ecdsa_verify (P.point_from_scalar k) h (P.ecdsa_sign k h) = true
  schnorr_wf : ∀ k h, validPrivKey k → h.length = EC_MESSAGE_HASH_LEN →
    sigWF (P.schnorr_sign k h)
  schnorr_ok : ∀ k h, validPrivKey k → h.length = EC_MESSAGE_HASH_LEN →
    P.schnorr_verify (P.point_from_scalar k) h (P.schnorr_sign k h) = true

/-- Modelled from the spec: wally_ec_private_key_verify. Its implementation is
not under src/; per the header contract and spec section 4.1 it succeeds
exactly when the 32-byte big-endian scalar is nonzero and below the curve
order, failing with InvalidKey otherwise. -/
def wally_ec_private_key_verify (priv_key : List Nat) : Except WallyError Unit :=
  if priv_key.length = EC_PRIVATE_KEY_LEN ∧
      0 < beToNat priv_key ∧ beToNat priv_key < secpOrder then
    .ok ()
  else
    .error .invalidKey

/-- Modelled from the spec: wally_ec_public_key_from_private_key. Its
implementation is not under src/; per spec section 4.2 it validates the
private key and returns the compressed public point from the curve provider. -/
def wally_ec_public_key_from_private_key (P : CurveProvider) (priv_key : List Nat) :
    Except WallyError (List Nat) :=
  if validPrivKey priv_key then .ok (P.point_from_scalar priv_key)
  else .error .invalidKey

/-- Modelled from the spec: wally_ec_sig_from_bytes. Its implementation is not
under src/; per spec sections 3 and 4.3 an invalid scheme flag is rejected
with InvalidFlag before any curve operation, an invalid private key with
InvalidKey, and signing dispatches to the provider's ECDSA or Schnorr
primitive on the 32-byte message hash. -/
def wally_ec_sig_from_bytes (P : CurveProvider) (priv_key bytes_in : List Nat)
    (flags : Nat) : Except WallyError (List Nat) :=
  if ¬(flags = EC_FLAG_ECDSA ∨ flags = EC_FLAG_SCHNORR) then .error .invalidFlag
  else if ¬ validPrivKey priv_key then .error .invalidKey
  else if bytes_in.length ≠ EC_MESSAGE_HASH_LEN then .error .bufferTooSmall
  else if flags = EC_FLAG_ECDSA then .ok (P.ecdsa_sign priv_key bytes_in)
  else .ok (P.schnorr_sign priv_key bytes_in)

/-- Modelled from the spec: wally_ec_sig_verify. Its implementation is not
under src/; per spec sections 3 and 4.4 an invalid scheme flag is rejected
with InvalidFlag before any curve operation, an invalid public point with
InvalidPoint, signature components outside [1, order-1] with
InvalidSignature, and a failed curve verification with VerificationFailed. -/
def wally_ec_sig_verify (P : CurveProvider) (pub_key bytes_in : List Nat)
    (flags : Nat) (sig_in : List Nat) : Except WallyError Unit :=
  if ¬(flags = EC_FLAG_ECDSA ∨ flags = EC_FLAG_SCHNORR) then .error .invalidFlag
  else if ¬(pub_key.length = EC_PUBLIC_KEY_LEN ∧ P.point_is_valid pub_key = true) then
    .error .invalidPoint
  else if bytes_in.length ≠ EC_MESSAGE_HASH_LEN then .error .bufferTooSmall
  else if ¬(sig_in.length = EC_SIGNATURE_LEN ∧
      0 < beToNat (sig_in.take 32) ∧ beToNat (sig_in.take 32) < secpOrder ∧
      0 < beToNat (sig_in.drop 32) ∧ beToNat (sig_in.drop 32) < secpOrder) then
    .error .invalidSignature
  else if (if flags = EC_FLAG_ECDSA then P.ecdsa_verify pub_key bytes_in sig_in
           else P.schnorr_verify pub_key bytes_in sig_in) then
    .ok ()
  else
    .error .verificationFailed

/-- Modelled from the spec: wally_ec_sig_normalize. Its implementation is not
under src/; per spec section 4.5 it fails with InvalidSignature when r or s is
zero or at least the curve order, and otherwise rewrites s to
min(s, order - s) leaving r unchanged. -/
def wally_ec_sig_normalize (sig_in : List Nat) : Except WallyError (List Nat) :=
  if sig_in.length ≠ EC_SIGNATURE_LEN then .error .invalidSignature
  else
    let r := beToNat (sig_in.take 32)
    let s := beToNat (sig_in.drop 32)
    if r = 0 ∨ secpOrder ≤ r ∨ s = 0 ∨ secpOrder ≤ s then .error .invalidSignature
    else .ok (sig_in.take 32 ++ natToBe 32 (min s (secpOrder - s)))

/-- DER content bytes of one INTEGER: the minimal big-endian encoding, with a
single leading zero byte inserted when the top bit of the first byte is set. -/
def derIntOf (m : Nat) : List Nat :=
  let bs := natToBeMin m
  if 128 ≤ bs.headI then 0 :: bs else bs

/-- Modelled from the spec: wally_ec_sig_to_der. Its implementation is not
under src/; per spec section 4.6 it encodes r and s as minimal-length
non-negative DER INTEGERs inside a SEQUENCE and reports the exact byte count
written. -/
def wally_ec_sig_to_der (sig_in : List Nat) : Except WallyError (List Nat × Nat) :=
  if sig_in.length ≠ EC_SIGNATURE_LEN then .error .invalidSignature
  else
    let r := beToNat (sig_in.take 32)
    let s := beToNat (sig_in.drop 32)
    if r = 0 ∨ secpOrder ≤ r ∨ s = 0 ∨ secpOrder ≤ s then .error .invalidSignature
    else
      let rb := derIntOf r
      let sb := derIntOf s
      let body := 2 :: rb.length :: (rb ++ 2 :: sb.length :: sb)
      let out := 48 :: body.length :: body
      .ok (out, out.length)

/-- Strict parse of the content bytes of one DER INTEGER: non-empty,
non-negative, minimally encoded, and fitting in 32 bytes after stripping a
single allowed leading zero. -/
def derReadInt (c : List Nat) : Option Nat :=
  match c with
  | [] => none
  | b :: rest =>
    if 128 ≤ b then none
    else if b = 0 then
      match rest with
      | [] => some 0
      | b2 :: _ =>
        if 128 ≤ b2 ∧ rest.length ≤ 32 then some (beToNat rest) else none
    else
      if c.length ≤ 32 then some (beToNat c) else none

/-- Modelled from the spec: wally_ec_sig_from_der. Its implementation is not
under src/; per spec section 4.6 it is a strict DER parser failing with
InvalidEncoding on wrong tags, length mismatches, negative or non-minimal
integers, oversized integers, or trailing bytes, and returns the 64-byte
compact signature. -/
def wally_ec_sig_from_der (bytes_in : List Nat) : Except WallyError (List Nat) :=
  match bytes_in with
  | 48 :: tlen :: rest =>
    if tlen ≠ rest.length then .error .invalidEncoding
    else
      match rest with
      | 2 :: rlen :: rest2 =>
        if rest2.length < rlen then .error .invalidEncoding
        else
          match derReadInt (rest2.take rlen) with
          | none => .error .invalidEncoding
          | some r =>
            match rest2.drop rlen with
            | 2 :: slen :: rest3 =>
              if slen ≠ rest3.length then .error .invalidEncoding
              else
                match derReadInt rest3 with
                | none => .error .invalidEncoding
                | some s => .ok (natToBe 32 r ++ natToBe 32 s)
            | _ => .error .invalidEncoding
      | _ => .error .invalidEncoding
  | _ => .error .invalidEncoding

/-- Magic bytes prepended to a bitcoin signed message: the length-prefixed
ASCII string of the bitcoin signed-message convention. -/
def msgMagic : List Nat :=
  [24, 66, 105, 116, 99, 111, 105, 110, 32, 83, 105, 103, 110, 101, 100,
   32, 77, 101, 115, 115, 97, 103, 101, 58, 10]

/-- Bitcoin variable-length integer encoding (little-endian payloads). -/
def varint (n : Nat) : List Nat :=
  if n < 253 then [n]
  else if n < 65536 then 253 :: natToLe 2 n
  else if n < 4294967296 then 254 :: natToLe 4 n
  else 255 :: natToLe 8 n

/-- Modelled from the spec: wally_format_bitcoin_message. Its implementation
is not under src/; per spec section 4.7 and the header contract it rejects
payloads above BITCOIN_MESSAGE_MAX_LEN with PayloadTooLarge, builds
magic-prefixed length-prefixed bytes, and with BITCOIN_MESSAGE_FLAG_HASH
writes the 32-byte double-SHA256 of that sequence into any destination of
length at least SHA256_LEN. The double-SHA256 collaborator is passed in as
the pure function sha256d. The result carries the output bytes and the
written count. -/
def wally_format_bitcoin_message (sha256d : List Nat → List Nat)
    (bytes_in : List Nat) (flags : Nat) (len : Nat) :
    Except WallyError (List Nat × Nat) :=
  if BITCOIN_MESSAGE_MAX_LEN < bytes_in.length then .error .payloadTooLarge
  else if ¬(flags = 0 ∨ flags = BITCOIN_MESSAGE_FLAG_HASH) then .error .invalidFlag
  else
    let formatted := msgMagic ++ varint bytes_in.length ++ bytes_in
    if flags = BITCOIN_MESSAGE_FLAG_HASH then
      if len < SHA256_LEN then .error .bufferTooSmall
      else .ok (sha256d formatted, SHA256_LEN)
    else
      if len < formatted.length then .error .bufferTooSmall
      else .ok (formatted, formatted.length)

/-- Concrete curve provider used to witness theorems that are parameterized
over the trusted provider: it derives a public point by tagging the scalar,
signs with fixed well-formed compact signatures, and verifies by comparing
against them. -/
def toyProvider : CurveProvider where
  point_from_scalar k := 2 :: k
  point_is_valid p := p.length == 33
  ecdsa_sign _ _ := natToBe 32 1 ++ natToBe 32 1
  ecdsa_verify _ _ sig := sig == natToBe 32 1 ++ natToBe 32 1
  schnorr_sign _ _ := natToBe 32 1 ++ natToBe 32 2
  schnorr_verify _ _ sig := sig == natToBe 32 1 ++ natToBe 32 2

/-- Fixed stand-in for the external double-SHA256 collaborator, used only to
witness formatter theorems: it always returns 32 zero bytes. -/
def toySha256d : List Nat → List Nat := fun _ => List.replicate 32 0

/-- Memory state of one signature-layer call: the caller's input buffers for
the private key, public key, message hash and input signature, plus the
destination buffer. -/
structure SigCallState where
  priv_key : List Nat
  pub_key : List Nat
  msg_hash : List Nat
  sig_in : List Nat
  bytes_out : List Nat

/-- Modelled from the spec: wally_ec_sig_from_bytes as a transformer on the
call's buffer state. All input pointers are const-qualified in the header, so
only the destination buffer is written, and per spec section 7 no partial
output is written on failure. -/
def run_ec_sig_from_bytes (P : CurveProvider) (st : SigCallState) (flags : Nat) :
    SigCallState × Except WallyError Unit :=
  match wally_ec_sig_from_bytes P st.priv_key st.msg_hash flags with
  | .ok out => ({ st with bytes_out := out }, .ok ())
  | .error e => (st, .error e)

/-- Modelled from the spec: wally_ec_sig_verify as a transformer on the call's
buffer state. All of its pointer parameters are const-qualified inputs in the
header, so no buffer is written at all. -/
def run_ec_sig_verify (P : CurveProvider) (st : SigCallState) (flags : Nat) :
    SigCallState × Except WallyError Unit :=
  (st, wally_ec_sig_verify P st.pub_key st.msg_hash flags st.sig_in)

/-- Modelled from the spec: wally_ec_private_key_verify as a transformer on
the call's buffer state. Its only pointer parameter is a const-qualified
input in the header, so no buffer is written at all. -/
def run_ec_private_key_verify (st : SigCallState) :
    SigCallState × Except WallyError Unit :=
  (st, wally_ec_private_key_verify st.priv_key)

theorem natToLe_length (n m : Nat) : (natToLe n m).length = n := by
  induction n generalizing m with
  | zero => rfl
  | succ n ih => simp [natToLe, ih]

theorem natToLe_mem_lt (n m : Nat) : ∀ b ∈ natToLe n m, b < 256 := by
  induction n generalizing m with
  | zero => simp [natToLe]
  | succ n ih =>
    intro b hb
    simp only [natToLe, List.mem_cons] at hb
    rcases hb with h | h
    · subst h; exact Nat.mod_lt _ (by omega)
    · exact ih _ b h

theorem leToNat_natToLe (n m : Nat) (h : m < 256 ^ n) : leToNat (natToLe n m) = m := by
  induction n generalizing m with
  | zero => simp [natToLe, leToNat]; omega
  | succ n ih =>
    have hdiv : m / 256 < 256 ^ n := by
      rw [Nat.div_lt_iff_lt_mul (by omega)]
      calc m < 256 ^ (n + 1) := h
      _ = 256 ^ n * 256 := by rw [Nat.pow_succ]
    simp only [natToLe, leToNat, ih _ hdiv]
    omega

theorem natToLe_leToNat (bs : List Nat) (h : ∀ b ∈ bs, b < 256) :
    natToLe bs.length (leToNat bs) = bs := by
  induction bs with
  | nil => rfl
  | cons b rest ih =>
    have hb : b < 256 := h b (List.mem_cons_self _ _)
    have hmod : (b + 256 * leToNat rest) % 256 = b := by
      rw [Nat.add_mul_mod_self_left b 256 (leToNat rest), Nat.mod_eq_of_lt hb]
    have hdiv : (b + 256 * leToNat rest) / 256 = leToNat rest := by
      rw [Nat.add_mul_div_left b _ (by omega), Nat.div_eq_of_lt hb]
      omega
    simp only [List.length_cons, natToLe, leToNat, hmod, hdiv]
    rw [ih (fun x hx => h x (List.mem_cons_of_mem _ hx))]

theorem natToBe_length (n m : Nat) : (natToBe n m).length = n := by
  simp [natToBe, natToLe_length]

theorem natToBe_mem_lt (n m : Nat) : ∀ b ∈ natToBe n m, b < 256 := by
  intro b hb
  exact natToLe_mem_lt n m b (List.mem_reverse.mp hb)

theorem beToNat_natToBe (n m : Nat) (h : m < 256 ^ n) : beToNat (natToBe n m) = m := by
  simp only [beToNat, natToBe, List.reverse_reverse]
  exact leToNat_natToLe n m h

theorem natToBe_beToNat (bs : List Nat) (h : ∀ b ∈ bs, b < 256) :
    natToBe bs.length (beToNat bs) = bs := by
  have hrev : ∀ b ∈ bs.reverse, b < 256 := fun b hb => h b (List.mem_reverse.mp hb)
  have := natToLe_leToNat bs.reverse hrev
  simp only [List.length_reverse] at this
  simp only [natToBe, beToNat, this, List.reverse_reverse]

theorem leToNat_append_zero (xs : List Nat) : leToNat (xs ++ [0]) = leToNat xs := by
  induction xs with
  | nil => simp [leToNat]
  | cons b rest ih => simp [leToNat, ih]

theorem beToNat_cons_zero (bs : List Nat) : beToNat (0 :: bs) = beToNat bs := by
  simp only [beToNat, List.reverse_cons]
  exact leToNat_append_zero bs.reverse

theorem beToNat_append_last (xs : List Nat) (b : Nat) :
    beToNat (xs ++ [b]) = 256 * beToNat xs + b := by
  simp only [beToNat, List.reverse_append, List.reverse_cons, List.reverse_nil,
    List.nil_append, List.singleton_append, leToNat]
  omega

theorem leToNat_lt (bs : List Nat) (h : ∀ b ∈ bs, b < 256) :
    leToNat bs < 256 ^ bs.length := by
  induction bs with
  | nil => simp [leToNat]
  | cons b rest ih =>
    have hb : b < 256 := h b (List.mem_cons_self _ _)
    have hr := ih (fun x hx => h x (List.mem_cons_of_mem _ hx))
    simp only [leToNat, List.length_cons, Nat.pow_succ]
    calc b + 256 * leToNat rest < 256 + 256 * leToNat rest := by omega
    _ = 256 * (leToNat rest + 1) := by ring
    _ ≤ 256 * 256 ^ rest.length := by
        exact Nat.mul_le_mul_left 256 (by omega)
    _ = 256 ^ rest.length * 256 := by ring

theorem beToNat_lt (bs : List Nat) (h : ∀ b ∈ bs, b < 256) :
    beToNat bs < 256 ^ bs.length := by
  have := leToNat_lt bs.reverse (fun b hb => h b (List.mem_reverse.mp hb))
  simpa [beToNat, List.length_reverse] using this

theorem beToNat_natToBeMin (m : Nat) : beToNat (natToBeMin m) = m := by
  induction m using Nat.strong_induction_on with
  | _ m ih =>
    rw [natToBeMin]
    by_cases h : m < 256
    · simp [h, beToNat, leToNat]
    · simp only [h, if_false]
      rw [beToNat_append_last, ih (m / 256) (Nat.div_lt_self (by omega) (by omega))]
      omega

theorem natToBeMin_mem_lt (m : Nat) : ∀ b ∈ natToBeMin m, b < 256 := by
  induction m using Nat.strong_induction_on with
  | _ m ih =>
    rw [natToBeMin]
    by_cases h : m < 256
    · simp [h]
    · simp only [h, if_false]
      intro b hb
      rcases List.mem_append.mp hb with h1 | h1
      · exact ih (m / 256) (Nat.div_lt_self (by omega) (by omega)) b h1
      · simp only [List.mem_singleton] at h1
        subst h1
        exact Nat.mod_lt _ (by omega)

theorem natToBeMin_ne_nil (m : Nat) : natToBeMin m ≠ [] := by
  rw [natToBeMin]
  by_cases h : m < 256
  · simp [h]
  · simp [h]

theorem natToBeMin_headI_pos (m : Nat) (hm : 0 < m) : 0 < (natToBeMin m).headI := by
  induction m using Nat.strong_induction_on with
  | _ m ih =>
    rw [natToBeMin]
    by_cases h : m < 256
    · simpa [h] using hm
    · simp only [h, if_false]
      rcases List.exists_cons_of_ne_nil (natToBeMin_ne_nil (m / 256)) with ⟨a, t, ht⟩
      have := ih (m / 256) (Nat.div_lt_self (by omega) (by omega))
        (Nat.div_pos (by omega) (by omega))
      rw [ht] at this ⊢
      simpa using this

theorem natToBeMin_length_le (k m : Nat) (hk : 1 ≤ k) (hm : m < 256 ^ k) :
    (natToBeMin m).length ≤ k := by
  induction m using Nat.strong_induction_on generalizing k with
  | _ m ih =>
    rw [natToBeMin]
    by_cases h : m < 256
    · simpa [h] using hk
    · simp only [h, if_false, List.length_append, List.length_singleton]
      have hk2 : 2 ≤ k := by
        by_contra hlt
        have : k = 1 := by omega
        subst this
        simp at hm
        omega
      have hdiv : m / 256 < 256 ^ (k - 1) := by
        rw [Nat.div_lt_iff_lt_mul (by omega)]
        calc m < 256 ^ k := hm
        _ = 256 ^ (k - 1) * 256 := by
            rw [← Nat.pow_succ]
            congr 1
            omega
      have := ih (m / 256) (Nat.div_lt_self (by omega) (by omega)) (k - 1)
        (by omega) hdiv
      omega

theorem derIntOf_length_le (m : Nat) (hm : m < 256 ^ 32) :
    (derIntOf m).length ≤ 33 := by
  have hlen : (natToBeMin m).length ≤ 32 := natToBeMin_length_le 32 m (by omega) hm
  unfold derIntOf
  by_cases hc : 128 ≤ (natToBeMin m).headI
  · simp only [hc, if_true, List.length_cons]
    omega
  · simp only [hc, if_false]
    omega

theorem derReadInt_derIntOf (m : Nat) (h1 : 0 < m) (h2 : m < 256 ^ 32) :
    derReadInt (derIntOf m) = some m := by
  rcases List.exists_cons_of_ne_nil (natToBeMin_ne_nil m) with ⟨a, t, ht⟩
  have hlen : (natToBeMin m).length ≤ 32 := natToBeMin_length_le 32 m (by omega) h2
  have hlen' : (a :: t).length ≤ 32 := by rw [← ht]; exact hlen
  have ha256 : a < 256 :=
    natToBeMin_mem_lt m a (by rw [ht]; exact List.mem_cons_self _ _)
  have hapos : 0 < a := by
    have := natToBeMin_headI_pos m h1
    rw [ht] at this
    simpa using this
  have hval : beToNat (a :: t) = m := by rw [← ht]; exact beToNat_natToBeMin m
  unfold derIntOf
  rw [ht]
  simp only [List.headI]
  by_cases hc : 128 ≤ a
  · simp only [hc, if_true]
    unfold derReadInt
    have hn0 : ¬(128 ≤ 0) := by omega
    simp only [hn0, if_false, if_true, hc, hlen', and_true, true_and, if_pos,
      reduceIte]
    rw [hval]
  · simp only [hc, if_false]
    unfold derReadInt
    have hne : ¬(a = 0) := by omega
    simp only [hc, hne, if_false, List.length_cons]
    have hlt : t.length + 1 ≤ 32 := by simpa using hlen'
    rw [if_pos hlt, hval]

theorem from_der_encoded (r s : Nat) (hr : 0 < r) (hr2 : r < 256 ^ 32)
    (hs : 0 < s) (hs2 : s < 256 ^ 32) :
    wally_ec_sig_from_der
      (48 :: (2 :: (derIntOf r).length ::
          (derIntOf r ++ 2 :: (derIntOf s).length :: derIntOf s)).length ::
        (2 :: (derIntOf r).length ::
          (derIntOf r ++ 2 :: (derIntOf s).length :: derIntOf s))) =
      .ok (natToBe 32 r ++ natToBe 32 s) := by
  have hrd := derReadInt_derIntOf r hr hr2
  have hsd := derReadInt_derIntOf s hs hs2
  have htake : (derIntOf r ++ 2 :: (derIntOf s).length :: derIntOf s).take
      (derIntOf r).length = derIntOf r := List.take_left _ _
  have hdrop : (derIntOf r ++ 2 :: (derIntOf s).length :: derIntOf s).drop
      (derIntOf r).length = 2 :: (derIntOf s).length :: derIntOf s :=
    List.drop_left _ _
  unfold wally_ec_sig_from_der
  simp only [List.length_cons, List.length_append, ne_eq, not_true_eq_false,
    if_false, htake, hdrop, hrd, hsd]
  have hnlt : ¬((derIntOf r ++ 2 :: (derIntOf s).length :: derIntOf s).length <
      (derIntOf r).length) := by
    simp only [List.length_append, List.length_cons]
    omega
  simp [hnlt, htake, hdrop, hrd, hsd]

/-- C2: for every valid 64-byte compact signature, with r and s components
each in [1, order-1], wally_ec_sig_to_der succeeds, reports the exact number
of bytes written, that count never exceeds EC_SIGNATURE_DER_MAX_LEN (72), and
wally_ec_sig_from_der applied to the produced DER bytes returns exactly the
original 64-byte compact signature. -/
theorem wally_ec_sig_der_roundtrip (sig : List Nat)
    (hlen : sig.length = EC_SIGNATURE_LEN) (hb : ∀ b ∈ sig, b < 256)
    (hr0 : 0 < beToNat (sig.take 32)) (hr1 : beToNat (sig.take 32) < secpOrder)
    (hs0 : 0 < beToNat (sig.drop 32)) (hs1 : beToNat (sig.drop 32) < secpOrder) :
    ∃ out written, wally_ec_sig_to_der sig = .ok (out, written) ∧
      written = out.length ∧ written ≤ EC_SIGNATURE_DER_MAX_LEN ∧
      wally_ec_sig_from_der out = .ok sig := by
  have hlen64 : sig.length = 64 := hlen
  have hord : secpOrder < 256 ^ 32 := by norm_num [secpOrder]
  have hr2 : beToNat (sig.take 32) < 256 ^ 32 := lt_trans hr1 hord
  have hs2 : beToNat (sig.drop 32) < 256 ^ 32 := lt_trans hs1 hord
  have hnr : ¬(beToNat (sig.take 32) = 0 ∨ secpOrder ≤ beToNat (sig.take 32) ∨
      beToNat (sig.drop 32) = 0 ∨ secpOrder ≤ beToNat (sig.drop 32)) := by
    omega
  unfold wally_ec_sig_to_der
  rw [if_neg (by simp [hlen64, EC_SIGNATURE_LEN]), if_neg hnr]
  refine ⟨_, _, rfl, rfl, ?_, ?_⟩
  · have hrl := derIntOf_length_le _ hr2
    have hsl := derIntOf_length_le _ hs2
    simp only [List.length_cons, List.length_append, EC_SIGNATURE_DER_MAX_LEN]
    omega
  · rw [from_der_encoded _ _ hr0 hr2 hs0 hs2]
    have htk : natToBe 32 (beToNat (sig.take 32)) = sig.take 32 := by
      have hmem : ∀ b ∈ sig.take 32, b < 256 :=
        fun b hb' => hb b (List.take_subset _ _ hb')
      have := natToBe_beToNat (sig.take 32) hmem
      rwa [List.length_take, hlen64] at this
    have hdr : natToBe 32 (beToNat (sig.drop 32)) = sig.drop 32 := by
      have hmem : ∀ b ∈ sig.drop 32, b < 256 :=
        fun b hb' => hb b (List.drop_subset _ _ hb')
      have := natToBe_beToNat (sig.drop 32) hmem
      rwa [List.length_drop, hlen64] at this
    rw [htk, hdr, List.take_append_drop]

theorem take32_append (xs ys : List Nat) (h : xs.length = 32) :
    (xs ++ ys).take 32 = xs := by
  rw [← h]
  exact List.take_left xs ys

theorem drop32_append (xs ys : List Nat) (h : xs.length = 32) :
    (xs ++ ys).drop 32 = ys := by
  rw [← h]
  exact List.drop_left xs ys

/-- C3: for every 64-byte input to wally_ec_sig_normalize, if r or s is zero
or at least the curve order the operation fails with InvalidSignature, and
otherwise it succeeds returning a signature whose r component is
byte-for-byte unchanged and whose s component is min(s, order - s). -/
theorem wally_ec_sig_normalize_spec (sig : List Nat)
    (hlen : sig.length = EC_SIGNATURE_LEN) (hb : ∀ b ∈ sig, b < 256) :
    (beToNat (sig.take 32) = 0 ∨ secpOrder ≤ beToNat (sig.take 32) ∨
        beToNat (sig.drop 32) = 0 ∨ secpOrder ≤ beToNat (sig.drop 32) →
      wally_ec_sig_normalize sig = .error .invalidSignature) ∧
    (0 < beToNat (sig.take 32) → beToNat (sig.take 32) < secpOrder →
      0 < beToNat (sig.drop 32) → beToNat (sig.drop 32) < secpOrder →
      ∃ out, wally_ec_sig_normalize sig = .ok out ∧
        out.take 32 = sig.take 32 ∧
        beToNat (out.drop 32) =
          min (beToNat (sig.drop 32)) (secpOrder - beToNat (sig.drop 32))) := by
  have hlen64 : sig.length = 64 := hlen
  have htklen : (sig.take 32).length = 32 := by simp [hlen64]
  constructor
  · intro hbad
    unfold wally_ec_sig_normalize
    rw [if_neg (by simp [hlen64, EC_SIGNATURE_LEN]), if_pos hbad]
  · intro hr0 hr1 hs0 hs1
    have hnr : ¬(beToNat (sig.take 32) = 0 ∨ secpOrder ≤ beToNat (sig.take 32) ∨
        beToNat (sig.drop 32) = 0 ∨ secpOrder ≤ beToNat (sig.drop 32)) := by omega
    unfold wally_ec_sig_normalize
    rw [if_neg (by simp [hlen64, EC_SIGNATURE_LEN]), if_neg hnr]
    refine ⟨_, rfl, ?_, ?_⟩
    · exact take32_append _ _ htklen
    · rw [drop32_append _ _ htklen]
      have hord : secpOrder < 256 ^ 32 := by norm_num [secpOrder]
      exact beToNat_natToBe 32 _ (by omega)

/-- C7: wally_ec_sig_normalize is idempotent and produces low-S output: on
every valid 64-byte compact signature it succeeds, normalizing its result
returns that result unchanged, and the s component of the result is at most
half the curve order. -/
theorem wally_ec_sig_normalize_idempotent (sig : List Nat)
    (hlen : sig.length = EC_SIGNATURE_LEN) (hb : ∀ b ∈ sig, b < 256)
    (hr0 : 0 < beToNat (sig.take 32)) (hr1 : beToNat (sig.take 32) < secpOrder)
    (hs0 : 0 < beToNat (sig.drop 32)) (hs1 : beToNat (sig.drop 32) < secpOrder) :
    ∃ out, wally_ec_sig_normalize sig = .ok out ∧
      wally_ec_sig_normalize out = .ok out ∧
      beToNat (out.drop 32) ≤ secpOrder / 2 := by
  have hlen64 : sig.length = 64 := hlen
  have htklen : (sig.take 32).length = 32 := by simp [hlen64]
  have hord : secpOrder < 256 ^ 32 := by norm_num [secpOrder]
  have hnr : ¬(beToNat (sig.take 32) = 0 ∨ secpOrder ≤ beToNat (sig.take 32) ∨
      beToNat (sig.drop 32) = 0 ∨ secpOrder ≤ beToNat (sig.drop 32)) := by omega
  have hstep : wally_ec_sig_normalize sig = .ok (sig.take 32 ++
      natToBe 32 (min (beToNat (sig.drop 32))
        (secpOrder - beToNat (sig.drop 32)))) := by
    unfold wally_ec_sig_normalize
    rw [if_neg (by simp [hlen64, EC_SIGNATURE_LEN]), if_neg hnr]
  set s := beToNat (sig.drop 32) with hsdef
  set s' := min s (secpOrder - s) with hs'def
  have hs'lt : s' < secpOrder := by omega
  have hs'pos : 0 < s' := by omega
  have hs'32 : s' < 256 ^ 32 := by omega
  have houttk : (sig.take 32 ++ natToBe 32 s').take 32 = sig.take 32 :=
    take32_append _ _ htklen
  have houtdr : (sig.take 32 ++ natToBe 32 s').drop 32 = natToBe 32 s' :=
    drop32_append _ _ htklen
  have houtval : beToNat ((sig.take 32 ++ natToBe 32 s').drop 32) = s' := by
    rw [houtdr]
    exact beToNat_natToBe 32 _ hs'32
  have houtlen : (sig.take 32 ++ natToBe 32 s').length = 64 := by
    simp [htklen, natToBe_length]
  refine ⟨_, hstep, ?_, ?_⟩
  · have hnr2 : ¬(beToNat ((sig.take 32 ++ natToBe 32 s').take 32) = 0 ∨
        secpOrder ≤ beToNat ((sig.take 32 ++ natToBe 32 s').take 32) ∨
        beToNat ((sig.take 32 ++ natToBe 32 s').drop 32) = 0 ∨
        secpOrder ≤ beToNat ((sig.take 32 ++ natToBe 32 s').drop 32)) := by
      rw [houttk, houtval]
      omega
    unfold wally_ec_sig_normalize
    rw [if_neg (by simp [houtlen, EC_SIGNATURE_LEN]), if_neg hnr2, houtval, houttk]
    have hfix : min s' (secpOrder - s') = s' := by omega
    rw [hfix]
  · rw [houtval]
    have h2 : s' * 2 ≤ secpOrder := by omega
    exact (Nat.le_div_iff_mul_le (by omega)).mpr h2

theorem toyProvider_ok : ProviderOK toyProvider := by
  have hsig1 : sigWF (natToBe 32 1 ++ natToBe 32 1) := by decide
  have hsig2 : sigWF (natToBe 32 1 ++ natToBe 32 2) := by decide
  constructor
  · intro k hk
    have hk32 : k.length = 32 := hk.1
    simp [toyProvider, EC_PUBLIC_KEY_LEN, hk32]
  · intro k hk
    have hk32 : k.length = 32 := hk.1
    simp [toyProvider, hk32]
  · intro k h hk hh
    exact hsig1
  · intro k h hk hh
    simp [toyProvider]
  · intro k h hk hh
    exact hsig2
  · intro k h hk hh
    simp [toyProvider]

/-- C8: wally_ec_private_key_verify on a 32-byte candidate scalar fails with
InvalidKey exactly when the big-endian value is zero or at least the
secp256k1 curve order, and succeeds otherwise. -/
theorem wally_ec_private_key_verify_spec (priv : List Nat)
    (hlen : priv.length = EC_PRIVATE_KEY_LEN) :
    (wally_ec_private_key_verify priv = .error .invalidKey ↔
      (beToNat priv = 0 ∨ secpOrder ≤ beToNat priv)) ∧
    (¬(beToNat priv = 0 ∨ secpOrder ≤ beToNat priv) →
      wally_ec_private_key_verify priv = .ok ()) := by
  unfold wally_ec_private_key_verify
  by_cases hv : 0 < beToNat priv ∧ beToNat priv < secpOrder
  · rw [if_pos ⟨hlen, hv⟩]
    exact ⟨⟨fun habs => absurd habs (by simp), fun hc => absurd hc (by omega)⟩,
      fun _ => rfl⟩
  · rw [if_neg (fun hc => hv ⟨hc.2.1, hc.2.2⟩)]
    exact ⟨⟨fun _ => by omega, fun _ => rfl⟩,
      fun hc => absurd (by omega : 0 < beToNat priv ∧ beToNat priv < secpOrder) hv⟩

/-- C4: any flags value that is not exactly one of EC_FLAG_ECDSA or
EC_FLAG_SCHNORR makes wally_ec_sig_from_bytes and wally_ec_sig_verify fail
with InvalidFlag; the result holds for every curve provider, so the
rejection cannot depend on any curve operation. -/
theorem wally_ec_invalid_flag_rejected (P : CurveProvider)
    (priv_key bytes_in pub_key sig_in : List Nat) (flags : Nat)
    (hfl : ¬(flags = EC_FLAG_ECDSA ∨ flags = EC_FLAG_SCHNORR)) :
    wally_ec_sig_from_bytes P priv_key bytes_in flags = .error .invalidFlag ∧
    wally_ec_sig_verify P pub_key bytes_in flags sig_in = .error .invalidFlag := by
  constructor
  · unfold wally_ec_sig_from_bytes
    rw [if_pos hfl]
  · unfold wally_ec_sig_verify
    rw [if_pos hfl]

/-- C6: wally_ec_sig_from_bytes is deterministic: any two invocations with
the same provider, private key, message hash and flags that both succeed
produce the same compact signature; the model consumes no randomness, being
a pure function of its inputs. -/
theorem wally_ec_sig_from_bytes_deterministic (P : CurveProvider)
    (priv_key bytes_in : List Nat) (flags : Nat) (s1 s2 : List Nat)
    (h1 : wally_ec_sig_from_bytes P priv_key bytes_in flags = .ok s1)
    (h2 : wally_ec_sig_from_bytes P priv_key bytes_in flags = .ok s2) :
    s1 = s2 := by
  rw [h1] at h2
  injection h2

/-- C1: for every provider satisfying the trusted curve-arithmetic contract,
every valid 32-byte private key, every 32-byte message hash, and each scheme
flag in {ECDSA, Schnorr}, signing via wally_ec_sig_from_bytes and verifying
the resulting compact signature via wally_ec_sig_verify against the public
key from wally_ec_public_key_from_private_key succeeds. -/
theorem wally_sign_then_verify (P : CurveProvider) (hP : ProviderOK P)
    (k h : List Nat) (hk : validPrivKey k) (hh : h.length = EC_MESSAGE_HASH_LEN)
    (flags : Nat) (hfl : flags = EC_FLAG_ECDSA ∨ flags = EC_FLAG_SCHNORR) :
    ∃ sig pub, wally_ec_sig_from_bytes P k h flags = .ok sig ∧
      wally_ec_public_key_from_private_key P k = .ok pub ∧
      wally_ec_sig_verify P pub h flags sig = .ok () := by
  have hflok : ¬¬(flags = EC_FLAG_ECDSA ∨ flags = EC_FLAG_SCHNORR) :=
    not_not_intro hfl
  have hpub : ¬¬((P.point_from_scalar k).length = EC_PUBLIC_KEY_LEN ∧
      P.point_is_valid (P.point_from_scalar k) = true) :=
    not_not_intro ⟨hP.pub_len k hk, hP.pub_valid k hk⟩
  rcases hfl with hfl | hfl
  · obtain ⟨w1, wb, w3, w4, w5, w6⟩ := hP.ecdsa_wf k h hk hh
    refine ⟨P.ecdsa_sign k h, P.point_from_scalar k, ?_, ?_, ?_⟩
    · unfold wally_ec_sig_from_bytes
      rw [if_neg hflok, if_neg (not_not_intro hk), if_neg (not_not_intro hh),
        if_pos hfl]
    · unfold wally_ec_public_key_from_private_key
      rw [if_pos hk]
    · unfold wally_ec_sig_verify
      rw [if_neg hflok, if_neg hpub, if_neg (not_not_intro hh),
        if_neg (not_not_intro ⟨w1, w3, w4, w5, w6⟩), if_pos hfl,
        hP.ecdsa_ok k h hk hh]
      simp
  · obtain ⟨w1, wb, w3, w4, w5, w6⟩ := hP.schnorr_wf k h hk hh
    have hne : ¬(flags = EC_FLAG_ECDSA) := by
      rw [hfl]
      decide
    refine ⟨P.schnorr_sign k h, P.point_from_scalar k, ?_, ?_, ?_⟩
    · unfold wally_ec_sig_from_bytes
      rw [if_neg hflok, if_neg (not_not_intro hk), if_neg (not_not_intro hh),
        if_neg hne]
    · unfold wally_ec_public_key_from_private_key
      rw [if_pos hk]
    · unfold wally_ec_sig_verify
      rw [if_neg hflok, if_neg hpub, if_neg (not_not_intro hh),
        if_neg (not_not_intro ⟨w1, w3, w4, w5, w6⟩), if_neg hne,
        hP.schnorr_ok k h hk hh]
      simp

/-- C5: wally_format_bitcoin_message returns PayloadTooLarge exactly when the
payload exceeds BITCOIN_MESSAGE_MAX_LEN bytes, whatever the flags and
destination length; a payload of exactly the maximum length is accepted. -/
theorem wally_format_bitcoin_message_payload_bound (sha256d : List Nat → List Nat)
    (bytes_in : List Nat) :
    (∀ flags len,
      wally_format_bitcoin_message sha256d bytes_in flags len =
          .error .payloadTooLarge ↔
        BITCOIN_MESSAGE_MAX_LEN < bytes_in.length) ∧
    (bytes_in.length = BITCOIN_MESSAGE_MAX_LEN →
      ∃ out written,
        wally_format_bitcoin_message sha256d bytes_in 0
          ((msgMagic ++ varint bytes_in.length ++ bytes_in).length) =
          .ok (out, written)) := by
  constructor
  · intro flags len
    unfold wally_format_bitcoin_message
    by_cases hbig : BITCOIN_MESSAGE_MAX_LEN < bytes_in.length
    · rw [if_pos hbig]
      exact ⟨fun _ => hbig, fun _ => rfl⟩
    · rw [if_neg hbig]
      constructor
      · intro habs
        exfalso
        by_cases hfl : flags = 0 ∨ flags = BITCOIN_MESSAGE_FLAG_HASH
        · rw [if_neg (not_not_intro hfl)] at habs
          by_cases hh : flags = BITCOIN_MESSAGE_FLAG_HASH
          · rw [if_pos hh] at habs
            by_cases hl : len < SHA256_LEN
            · rw [if_pos hl] at habs
              simp at habs
            · rw [if_neg hl] at habs
              simp at habs
          · rw [if_neg hh] at habs
            by_cases hl :
                len < (msgMagic ++ varint bytes_in.length ++ bytes_in).length
            · rw [if_pos hl] at habs
              simp at habs
            · rw [if_neg hl] at habs
              simp at habs
        · rw [if_pos hfl] at habs
          simp at habs
      · intro hc
        exact absurd hc hbig
  · intro hmax
    unfold wally_format_bitcoin_message
    rw [if_neg (by omega), if_neg (not_not_intro (Or.inl rfl)),
      if_neg (by decide : ¬((0 : Nat) = BITCOIN_MESSAGE_FLAG_HASH)),
      if_neg (lt_irrefl _)]
    exact ⟨_, _, rfl⟩

/-- C10: with BITCOIN_MESSAGE_FLAG_HASH set, the destination length
requirement of wally_format_bitcoin_message is a lower bound: any destination
of length at least SHA256_LEN is accepted and receives exactly the 32-byte
double-SHA256 digest of the formatted message. -/
theorem wally_format_bitcoin_message_hash_len (sha256d : List Nat → List Nat)
    (hsha : ∀ x, (sha256d x).length = SHA256_LEN) (bytes_in : List Nat)
    (len : Nat) (hmsg : bytes_in.length ≤ BITCOIN_MESSAGE_MAX_LEN)
    (hlen : SHA256_LEN ≤ len) :
    ∃ out,
      wally_format_bitcoin_message sha256d bytes_in BITCOIN_MESSAGE_FLAG_HASH
          len = .ok (out, SHA256_LEN) ∧
      out.length = SHA256_LEN ∧
      out = sha256d (msgMagic ++ varint bytes_in.length ++ bytes_in) := by
  unfold wally_format_bitcoin_message
  rw [if_neg (by omega), if_neg (not_not_intro (Or.inr rfl)), if_pos rfl,
    if_neg (by omega)]
  exact ⟨_, rfl, hsha _, rfl⟩

/-- C9: the signature-layer operations leave every input buffer unchanged:
running wally_ec_sig_from_bytes on the call state writes only the
destination buffer, and wally_ec_sig_verify and wally_ec_private_key_verify
write no buffer at all, for every provider, state and flags. -/
theorem wally_sig_inputs_unchanged (P : CurveProvider) (st : SigCallState)
    (flags : Nat) :
    ((run_ec_sig_from_bytes P st flags).1.priv_key = st.priv_key ∧
      (run_ec_sig_from_bytes P st flags).1.pub_key = st.pub_key ∧
      (run_ec_sig_from_bytes P st flags).1.msg_hash = st.msg_hash ∧
      (run_ec_sig_from_bytes P st flags).1.sig_in = st.sig_in) ∧
    (run_ec_sig_verify P st flags).1 = st ∧
    (run_ec_private_key_verify st).1 = st := by
  refine ⟨?_, rfl, rfl⟩
  unfold run_ec_sig_from_bytes
  cases hw : wally_ec_sig_from_bytes P st.priv_key st.msg_hash flags <;> simp

/-- Witness for C1: sign-then-verify at a concrete valid key, hash and the
ECDSA flag, under a concrete provider satisfying the contract. -/
theorem wally_sign_then_verify_witness :
    ∃ sig pub,
      wally_ec_sig_from_bytes toyProvider (List.replicate 31 0 ++ [1])
        (List.replicate 32 0) EC_FLAG_ECDSA = .ok sig ∧
      wally_ec_public_key_from_private_key toyProvider
        (List.replicate 31 0 ++ [1]) = .ok pub ∧
      wally_ec_sig_verify toyProvider pub (List.replicate 32 0) EC_FLAG_ECDSA
        sig = .ok () :=
  wally_sign_then_verify toyProvider toyProvider_ok _ _ (by decide) (by decide)
    EC_FLAG_ECDSA (Or.inl rfl)

/-- Witness for C2: the DER round trip on the concrete compact signature with
r = s = 1. -/
theorem wally_ec_sig_der_roundtrip_witness :
    ∃ out written,
      wally_ec_sig_to_der
          ((List.replicate 31 0 ++ [1]) ++ (List.replicate 31 0 ++ [1])) =
        .ok (out, written) ∧
      written = out.length ∧ written ≤ EC_SIGNATURE_DER_MAX_LEN ∧
      wally_ec_sig_from_der out =
        .ok ((List.replicate 31 0 ++ [1]) ++ (List.replicate 31 0 ++ [1])) :=
  wally_ec_sig_der_roundtrip _ (by decide) (by decide) (by decide) (by decide)
    (by decide) (by decide)

/-- Witness for C3: normalization behaviour on the concrete compact signature
with r = s = 1. -/
theorem wally_ec_sig_normalize_spec_witness :
    (beToNat (((List.replicate 31 0 ++ [1]) ++
          (List.replicate 31 0 ++ [1])).take 32) = 0 ∨
        secpOrder ≤ beToNat (((List.replicate 31 0 ++ [1]) ++
          (List.replicate 31 0 ++ [1])).take 32) ∨
        beToNat (((List.replicate 31 0 ++ [1]) ++
          (List.replicate 31 0 ++ [1])).drop 32) = 0 ∨
        secpOrder ≤ beToNat (((List.replicate 31 0 ++ [1]) ++
          (List.replicate 31 0 ++ [1])).drop 32) →
      wally_ec_sig_normalize ((List.replicate 31 0 ++ [1]) ++
        (List.replicate 31 0 ++ [1])) = .error .invalidSignature) ∧
    (0 < beToNat (((List.replicate 31 0 ++ [1]) ++
          (List.replicate 31 0 ++ [1])).take 32) →
      beToNat (((List.replicate 31 0 ++ [1]) ++
        (List.replicate 31 0 ++ [1])).take 32) < secpOrder →
      0 < beToNat (((List.replicate 31 0 ++ [1]) ++
        (List.replicate 31 0 ++ [1])).drop 32) →
      beToNat (((List.replicate 31 0 ++ [1]) ++
        (List.replicate 31 0 ++ [1])).drop 32) < secpOrder →
      ∃ out, wally_ec_sig_normalize ((List.replicate 31 0 ++ [1]) ++
          (List.replicate 31 0 ++ [1])) = .ok out ∧
        out.take 32 = ((List.replicate 31 0 ++ [1]) ++
          (List.replicate 31 0 ++ [1])).take 32 ∧
        beToNat (out.drop 32) =
          min (beToNat (((List.replicate 31 0 ++ [1]) ++
              (List.replicate 31 0 ++ [1])).drop 32))
            (secpOrder - beToNat (((List.replicate 31 0 ++ [1]) ++
              (List.replicate 31 0 ++ [1])).drop 32))) :=
  wally_ec_sig_normalize_spec _ (by decide) (by decide)

/-- Witness for C4: flag values 0 and 3 are both rejected with InvalidFlag by
signing and verification. -/
theorem wally_ec_invalid_flag_rejected_witness :
    (wally_ec_sig_from_bytes toyProvider [] [] 0 = .error .invalidFlag ∧
      wally_ec_sig_verify toyProvider [] [] 0 [] = .error .invalidFlag) ∧
    (wally_ec_sig_from_bytes toyProvider [] [] 3 = .error .invalidFlag ∧
      wally_ec_sig_verify toyProvider [] [] 3 [] = .error .invalidFlag) :=
  ⟨wally_ec_invalid_flag_rejected toyProvider [] [] [] [] 0 (by decide),
    wally_ec_invalid_flag_rejected toyProvider [] [] [] [] 3 (by decide)⟩

/-- Witness for C6: two concrete successful invocations with identical inputs
yield the same signature bytes. -/
theorem wally_ec_sig_from_bytes_deterministic_witness :
    wally_ec_sig_from_bytes toyProvider (List.replicate 31 0 ++ [1])
        (List.replicate 32 0) EC_FLAG_ECDSA =
      .ok (natToBe 32 1 ++ natToBe 32 1) ∧
    natToBe 32 1 ++ natToBe 32 1 = natToBe 32 1 ++ natToBe 32 1 :=
  ⟨by rfl,
    wally_ec_sig_from_bytes_deterministic toyProvider
      (List.replicate 31 0 ++ [1]) (List.replicate 32 0) EC_FLAG_ECDSA
      (natToBe 32 1 ++ natToBe 32 1) (natToBe 32 1 ++ natToBe 32 1)
      (by rfl) (by rfl)⟩

/-- Witness for C7: idempotence and the low-S bound on the concrete compact
signature with r = s = 1. -/
theorem wally_ec_sig_normalize_idempotent_witness :
    ∃ out,
      wally_ec_sig_normalize ((List.replicate 31 0 ++ [1]) ++
          (List.replicate 31 0 ++ [1])) = .ok out ∧
      wally_ec_sig_normalize out = .ok out ∧
      beToNat (out.drop 32) ≤ secpOrder / 2 :=
  wally_ec_sig_normalize_idempotent _ (by decide) (by decide) (by decide)
    (by decide) (by decide) (by decide)

/-- Witness for C8: the failure condition of private-key validation at the
concrete key of value 1. -/
theorem wally_ec_private_key_verify_spec_witness :
    (wally_ec_private_key_verify (List.replicate 31 0 ++ [1]) =
        .error .invalidKey ↔
      (beToNat (List.replicate 31 0 ++ [1]) = 0 ∨
        secpOrder ≤ beToNat (List.replicate 31 0 ++ [1]))) ∧
    (¬(beToNat (List.replicate 31 0 ++ [1]) = 0 ∨
        secpOrder ≤ beToNat (List.replicate 31 0 ++ [1])) →
      wally_ec_private_key_verify (List.replicate 31 0 ++ [1]) = .ok ()) :=
  wally_ec_private_key_verify_spec _ (by decide)

/-- Witness for C5: the payload-size boundary at exactly the maximum length
and one byte above it. -/
theorem wally_format_bitcoin_message_payload_bound_witness :
    (wally_format_bitcoin_message toySha256d
          (List.replicate BITCOIN_MESSAGE_MAX_LEN 0) 0 70000 =
        .error .payloadTooLarge ↔
      BITCOIN_MESSAGE_MAX_LEN <
        (List.replicate BITCOIN_MESSAGE_MAX_LEN 0).length) ∧
    (∃ out written,
      wally_format_bitcoin_message toySha256d
          (List.replicate BITCOIN_MESSAGE_MAX_LEN 0) 0
          ((msgMagic ++
            varint (List.replicate BITCOIN_MESSAGE_MAX_LEN 0).length ++
            List.replicate BITCOIN_MESSAGE_MAX_LEN 0).length) =
        .ok (out, written)) ∧
    wally_format_bitcoin_message toySha256d
        (List.replicate (BITCOIN_MESSAGE_MAX_LEN + 1) 0) 0 70000 =
      .error .payloadTooLarge :=
  ⟨(wally_format_bitcoin_message_payload_bound toySha256d _).1 0 70000,
    (wally_format_bitcoin_message_payload_bound toySha256d _).2
      (by simp only [List.length_replicate]),
    ((wally_format_bitcoin_message_payload_bound toySha256d _).1 0 70000).mpr
      (by simp only [List.length_replicate]; omega)⟩

/-- Witness for C10: a 40-byte destination in hash mode receives exactly the
32-byte digest. -/
theorem wally_format_bitcoin_message_hash_len_witness :
    ∃ out,
      wally_format_bitcoin_message toySha256d [104, 101, 108, 108, 111]
          BITCOIN_MESSAGE_FLAG_HASH 40 = .ok (out, SHA256_LEN) ∧
      out.length = SHA256_LEN ∧
      out = toySha256d (msgMagic ++
        varint ([104, 101, 108, 108, 111] : List Nat).length ++
        [104, 101, 108, 108, 111]) :=
  wally_format_bitcoin_message_hash_len toySha256d
    (fun x => by simp [toySha256d, SHA256_LEN]) _ 40 (by decide) (by decide)
